import Mathlib

/-!
Verification of the npm install/ci build-info pipeline of jfrog-cli-core
(`artifactory/commands/npm/installorci.go`).

The Go source is shallowly embedded: the dependency graph
(`map[string]*dependency`) becomes an association list with functional
update, the recursive JSON walk `parseDependencies` becomes structural
recursion over an inductive dependency forest, and the stateful fields of
`NpmCommandArgs` become explicit parameters and results.
-/

namespace NpmInstall

/-- `buildinfo.Checksum` of jfrog-client-go: a digest bundle.  The command
never inspects its fields, so the two digests are kept abstract strings. -/
structure Checksum where
  sha1 : String
  md5 : String
deriving DecidableEq, Repr

/-- The `dependency` struct of installorci.go: name, version, accumulated
scopes, file type and checksum filled in by enrichment (`*Checksum` nil
pointer becomes `Option`), and the accumulated provenance paths. -/
structure Dependency where
  name : String
  version : String
  scopes : List String
  fileType : String
  checksum : Option Checksum
  pathToRoot : List (List String)
deriving DecidableEq, Repr

/-- The `nca.dependencies` map (`map[string]*dependency`), embedded as an
association list from the `name:version` key to the dependency record. -/
abbrev Graph := List (String × Dependency)

/-- Go map read `nca.dependencies[depKey]` (nil when absent). -/
def lookupDep : Graph → String → Option Dependency
  | [], _ => none
  | (k, d) :: rest, key => if k = key then some d else lookupDep rest key

/-- Go map write `nca.dependencies[depKey] = d` (insert or overwrite). -/
def setDep : Graph → String → Dependency → Graph
  | [], key, d => [(key, d)]
  | (k, e) :: rest, key, d =>
    if k = key then (key, d) :: rest else (k, e) :: setDep rest key d

/-- `scopeAlreadyExists` of installorci.go: linear scan of the scope list. -/
def scopeAlreadyExists (scope : String) : List String → Bool
  | [] => false
  | existingScope :: rest =>
    if existingScope = scope then true else scopeAlreadyExists scope rest

/-- `appendDependency` of installorci.go: create the node on first sight
with the single scope, otherwise append the scope only when it is not
already present; in both cases append the new path-to-root entry. -/
def appendDependency (g : Graph) (depKey depName depVersion scope : String)
    (pathToRoot : List String) : Graph :=
  match lookupDep g depKey with
  | none =>
    setDep g depKey
      { name := depName, version := depVersion, scopes := [scope],
        fileType := "", checksum := none, pathToRoot := [pathToRoot] }
  | some d =>
    let d1 := if scopeAlreadyExists scope d.scopes then d
              else { d with scopes := d.scopes ++ [scope] }
    setDep g depKey { d1 with pathToRoot := d1.pathToRoot ++ [pathToRoot] }

/-- The nested JSON object that `npm ls` returns under `"dependencies"`:
an ordered sequence of entries, each carrying the dependency name, an
optional `"version"` field, a nested `"dependencies"` object (`children`)
and the remaining sibling entries (`rest`). -/
inductive DepForest : Type where
  | nil : DepForest
  | cons (name : String) (version : Option String) (children : DepForest)
      (rest : DepForest) : DepForest

/-- `parseDependencies` of installorci.go: walk the JSON object entry by
entry.  For each entry the key is `name + ":" + version` (the version is
the empty string when the `"version"` field is absent, matching
`string(nil)`); the node is added via `appendDependency` only when the
`"version"` field is present, and the nested `"dependencies"` object is
walked with the entry's key prepended to the path. -/
def parseDependencies (scope : String) (pathToRoot : List String) (g : Graph) :
    DepForest → Graph
  | .nil => g
  | .cons name version children rest =>
    let depVersion := version.getD ""
    let depKey := name ++ ":" ++ depVersion
    let g1 := match version with
      | none => g
      | some _ => appendDependency g depKey name depVersion scope pathToRoot
    let g2 := parseDependencies scope (depKey :: pathToRoot) g1 children
    parseDependencies scope pathToRoot g2 rest

/-- Does the forest contain an entry with a present `"version"` field whose
`name:version` key is `key`?  These are exactly the keys
`parseDependencies` may insert. -/
def forestHasKey : DepForest → String → Bool
  | .nil, _ => false
  | .cons name version children rest, key =>
    (match version with
     | some v => name ++ ":" ++ v = key
     | none => false)
    || forestHasKey children key || forestHasKey rest key

/-- `q` is a provenance path that the walk of `f` seeded with `p` may
record for the node `key`: somewhere in `f` sits an entry with a present
`"version"` field whose `name:version` key is `key`, and `q` is exactly
the keys of that occurrence's strict ancestors, nearest-ancestor-first
(the direct parent first, the node's own key not added for its own
occurrence), followed by the seed `p`.  The recursion mirrors
`parseDependencies`: descending into an entry's nested `"dependencies"`
object prepends that entry's key, and at the occurrence itself nothing
more is prepended. -/
def pathRecordedFor : DepForest → List String → String → List String → Bool
  | .nil, _, _, _ => false
  | .cons name version children rest, p, key, q =>
    let depKey := name ++ ":" ++ version.getD ""
    (version.isSome && depKey = key && q = p)
    || pathRecordedFor children (depKey :: p) key q
    || pathRecordedFor rest p key q

/-- Go `strings.HasPrefix(s, p)`, computed on the character lists. -/
def strStartsWith (s p : String) : Bool := p.toList.isPrefixOf s.toList

/-- Drop leading and trailing whitespace characters. -/
def trimChars (l : List Char) : List Char :=
  ((l.dropWhile Char.isWhitespace).reverse.dropWhile Char.isWhitespace).reverse

/-- Go `strings.TrimSpace`, computed on the character list. -/
def strTrim (s : String) : String := String.mk (trimChars s.toList)

/-- Split a character list at its first `'='`, when it has one. -/
def splitAtEq : List Char → Option (List Char × List Char)
  | [] => none
  | c :: rest =>
    if c = '=' then some ([], rest)
    else (splitAtEq rest).map fun p => (c :: p.1, p.2)

/-- Go `strings.SplitN(s, "=", 2)`: split at the first `=` only; a string
without `=` stays whole. -/
def splitN2 (s : String) : List String :=
  match splitAtEq s.toList with
  | none => [s]
  | some kv => [String.mk kv.1, String.mk kv.2]

/-- Go `strings.Contains`: `sub` occurs as a contiguous substring of the
scanned character list. -/
def listContainsSub (sub : List Char) : List Char → Bool
  | [] => sub.isEmpty
  | c :: rest => sub.isPrefixOf (c :: rest) || listContainsSub sub rest

/-- Go `strings.Contains(s, sub)` on strings. -/
def strContains (s sub : String) : Bool := listContainsSub sub.toList s.toList

/-- The `typeRestriction` enumeration of installorci.go. -/
inductive TypeRestriction : Type where
  | defaultRestriction : TypeRestriction
  | all : TypeRestriction
  | devOnly : TypeRestriction
  | prodOnly : TypeRestriction
deriving DecidableEq, Repr

/-- `setTypeRestriction` of installorci.go: `omit` always sets the
restriction; the deprecated `only` / `production` keys set it only while it
is still unset. -/
def setTypeRestriction (r : TypeRestriction) (key value : String) :
    TypeRestriction :=
  if key = "omit" then
    if strContains value "dev" then .prodOnly else .all
  else if r = .defaultRestriction then
    if key = "only" then
      if strContains value "prod" then .prodOnly
      else if strContains value "dev" then .devOnly
      else r
    else if key = "production" && strContains value "true" then .prodOnly
    else r
  else r

/-- `isValidKey` of installorci.go: drops comment lines, scoped
configurations and the keys the command re-injects itself. -/
def isValidKey (key : String) : Bool :=
  !strStartsWith key "//" &&
  !strStartsWith key ";" &&
  !strStartsWith key "@" &&
  key ≠ "registry" &&
  key ≠ "metrics-registry" &&
  key ≠ "json"

/-- One iteration of the scanner loop of `prepareConfigData`, restricted to
its `typeRestriction` side effect: a non-empty line that splits into
`key = value` with a valid trimmed key feeds the trimmed key and value to
`setTypeRestriction`; every other line leaves the restriction unchanged. -/
def processConfigLine (r : TypeRestriction) (line : String) : TypeRestriction :=
  if line = "" then r
  else
    match splitN2 line with
    | [k0, v0] =>
      let key := strTrim k0
      if isValidKey key then setTypeRestriction r key (strTrim v0) else r
    | _ => r

/-- The `typeRestriction` computed by `prepareConfigData` over the whole
`npm config list` dump, processed line by line from the zero value
`defaultRestriction`. -/
def deriveTypeRestriction (lines : List String) : TypeRestriction :=
  lines.foldl processConfigLine .defaultRestriction

/-- The key/value pair a line contributes to `setTypeRestriction`, when it
contributes one (same guard as `processConfigLine`). -/
def lineKeyVal (line : String) : Option (String × String) :=
  if line = "" then none
  else
    match splitN2 line with
    | [k0, v0] =>
      let key := strTrim k0
      if isValidKey key then some (key, strTrim v0) else none
    | _ => none

/-- Following the claim's words: the value of the last processed `omit`
line, if any. -/
def lastOmitValue : List (String × String) → Option String
  | [] => none
  | (k, v) :: rest =>
    match lastOmitValue rest with
    | some w => some w
    | none => if k = "omit" then some v else none

/-- Following the claim's words: the restriction contributed by a single
deprecated `only` / `production` line, if any. -/
def deprecatedRestriction (kv : String × String) : Option TypeRestriction :=
  if kv.1 = "only" then
    if strContains kv.2 "prod" then some .prodOnly
    else if strContains kv.2 "dev" then some .devOnly
    else none
  else if kv.1 = "production" && strContains kv.2 "true" then some .prodOnly
  else none

/-- Following the claim's words, for comparison with
`deriveTypeRestriction`: an `omit` line always wins (dev in its value gives
prod-only, anything else gives all); otherwise the first effective
deprecated line wins; otherwise no restriction. -/
def claimRestriction (lines : List String) : TypeRestriction :=
  let pairs := lines.filterMap lineKeyVal
  match lastOmitValue pairs with
  | some v => if strContains v "dev" then .prodOnly else .all
  | none => (pairs.findSome? deprecatedRestriction).getD .defaultRestriction

/-- The outcome of one `commandUtils.GetDependencyInfo(name, ver, ...)`
call, abstracted as an oracle: a possibly-nil checksum, a file type and a
possibly-nil error.  A "not found" lookup is `(none, _, none)`. -/
abbrev DependencyInfoOracle := String → String → Option Checksum × String × Option String

/-- The task body built by `createGetDependencyInfoFunc` of installorci.go:
on an error or a nil checksum the node is left untouched and the error (nil
for "not found") is returned; otherwise the node's `fileType` and
`checksum` are updated. -/
def runDependencyInfoTask (info : DependencyInfoOracle) (d : Dependency) :
    Dependency × Option String :=
  let r := info d.name d.version
  match r.2.2 with
  | some e => (d, some e)
  | none =>
    match r.1 with
    | none => (d, none)
    | some c => ({ d with fileType := r.2.1, checksum := some c }, none)

/-- `collectDependenciesChecksums` of installorci.go: one enrichment task is
enqueued for every node of the graph; the bounded pool (created with
failFast = false) runs them all, each task mutating only its own node, and
every task error is offered to an errors queue of capacity one, so the pass
returns nil exactly when no task errored and otherwise the first recorded
error.  The pool is embedded as the sequential execution of every task in
enqueue order. -/
def collectDependenciesChecksums (info : DependencyInfoOracle) (g : Graph) :
    Graph × Option String :=
  let results := g.map fun kd => (kd.1, runDependencyInfoTask info kd.2)
  (results.map fun r => (r.1, r.2.1),
   (results.filterMap fun r => r.2.2).head?)

/-- `buildinfo.Dependency` of jfrog-client-go, as populated by
`transformDependencies`. -/
structure BuildInfoDependency where
  id : String
  fileType : String
  scopes : List String
  checksum : Option Checksum
  requestedBy : List (List String)
deriving DecidableEq, Repr

/-- The record `transformDependencies` builds for one graph node. -/
def toBuildInfoDependency (d : Dependency) : BuildInfoDependency :=
  { id := d.name ++ ":" ++ d.version, fileType := d.fileType,
    scopes := d.scopes, checksum := d.checksum, requestedBy := d.pathToRoot }

/-- `transformDependencies` of installorci.go: each node goes to the
resolved list when its checksum is non-nil and to the missing list
otherwise, in graph iteration order. -/
def transformDependencies : Graph → List BuildInfoDependency × List BuildInfoDependency
  | [] => ([], [])
  | (_, d) :: rest =>
    let r := transformDependencies rest
    if d.checksum ≠ none then (toBuildInfoDependency d :: r.1, r.2)
    else (r.1, toBuildInfoDependency d :: r.2)

/-- `restoreNpmrcAndError` of installorci.go: combine a restoration failure
with the original error in one message, or return the original error
unchanged when restoration succeeded. -/
def restoreNpmrcAndError (restoreResult : Option String) (err : String) : String :=
  match restoreResult with
  | some restoreErr => "Two errors occurred:\n " ++ restoreErr ++ "\n " ++ err
  | none => err

/-- `filterFlags` of installorci.go: keep only the arguments that do not
start with `-`. -/
def filterFlags (splitArgs : List String) : List String :=
  splitArgs.filter fun arg => !strStartsWith arg "-"

/-- `runInstallOrCi` of installorci.go: build-info collection is disabled
with a warning when it was requested and any non-flag npm argument
remains; the install/ci process itself always runs (its outcome is the
`installResult` oracle).  Returns the updated `collectBuildInfo` flag and
the process error. -/
def runInstallOrCi (collectBuildInfo : Bool) (npmArgs : List String)
    (installResult : Option String) : Bool × Option String :=
  let filteredArgs := filterFlags npmArgs
  let collect := if collectBuildInfo && filteredArgs.length > 0 then false
                 else collectBuildInfo
  (collect, installResult)

/-- The semantic version of the npm client, as the usual
major.minor.patch triple. -/
structure SemVer where
  major : Nat
  minor : Nat
  patch : Nat
deriving DecidableEq, Repr

/-- Strict lexicographic order on semantic versions: `a` is an older
version than `b`. -/
def semVerLt (a b : SemVer) : Bool :=
  a.major < b.major ||
  (a.major = b.major &&
    (a.minor < b.minor || (a.minor = b.minor && a.patch < b.patch)))

/-- `version.Compare` of the external jfrog-client-go version library, per
its documented contract: 0 when the versions are equal, -1 when the
receiver is the newer version, 1 when the receiver is the older version. -/
def versionCompare (v other : SemVer) : Int :=
  if v = other then 0
  else if semVerLt v other then 1
  else -1

/-- `minSupportedNpmVersion = "5.4.0"` of installorci.go. -/
def minSupportedNpmVersion : SemVer := { major := 5, minor := 4, patch := 0 }

/-- `validateNpmVersion` of installorci.go: propagate a version-lookup
failure, reject when `Compare(minSupportedNpmVersion) > 0`, keep the
version otherwise. -/
def validateNpmVersion (command : String) (versionResult : Except String SemVer) :
    Except String SemVer :=
  match versionResult with
  | .error e => .error e
  | .ok npmVersion =>
    if versionCompare npmVersion minSupportedNpmVersion > 0 then
      .error ("JFrog CLI npm " ++ command ++
        " command requires npm client version 5.4.0 or higher")
    else .ok npmVersion

/-- `setJsonOutput` of installorci.go: propagate a `npm config get json`
failure; otherwise the effective flag is true for every value other than
the literal string "false" (the source comments that `--json=<not boolean>`
makes npm itself report a non-boolean value, which this treats as true). -/
def setJsonOutput (configGetResult : Except String String) : Except String Bool :=
  match configGetResult with
  | .error e => .error e
  | .ok jsonOutput => .ok (jsonOutput ≠ "false")

/-- The outcomes of the external collaborators `preparePrerequisites`
consults, in source order: the npm executable lookup, the npm version
lookup, `npm config get json`, the working-directory lookup, the
Artifactory auth setup, the npm repository details, build-info
preparation (whose payload is the `collectBuildInfo` flag) and the
`.npmrc` backup. -/
structure PrereqEnv where
  setNpmExecutableError : Option String
  npmVersionResult : Except String SemVer
  configGetJson : Except String String
  workingDirResult : Except String String
  setArtifactoryAuthError : Option String
  npmRepoDetailsResult : Except String (String × String)
  prepareBuildInfoResult : Except String Bool
  backupFileError : Option String

/-- `preparePrerequisites` of installorci.go: run the prerequisite steps in
source order, stopping at the first failure. -/
def preparePrerequisites (command : String) (env : PrereqEnv) : Option String :=
  match env.setNpmExecutableError with
  | some e => some e
  | none =>
  match validateNpmVersion command env.npmVersionResult with
  | .error e => some e
  | .ok _ =>
  match setJsonOutput env.configGetJson with
  | .error e => some e
  | .ok _ =>
  match env.workingDirResult with
  | .error e => some e
  | .ok _ =>
  match env.setArtifactoryAuthError with
  | some e => some e
  | none =>
  match env.npmRepoDetailsResult with
  | .error e => some e
  | .ok _ =>
  match env.prepareBuildInfoResult with
  | .error e => some e
  | .ok _ => env.backupFileError

/-- The outcomes of the pipeline steps `run` sequences after the
prerequisites: creating the temporary `.npmrc`, the install/ci process,
the `.npmrc` restoration, and the three build-info steps. -/
structure RunEnv where
  prepareError : Option String
  createTempNpmrcError : Option String
  installError : Option String
  restoreError : Option String
  setDependenciesError : Option String
  collectChecksumsError : Option String
  saveDataError : Option String

/-- `run` of installorci.go: prerequisites, temporary `.npmrc` creation and
the install/ci process (both of the latter wrapping their error with
`restoreNpmrcAndError`), the mandatory restoration, then — only when
build-info collection is still enabled — dependency parsing, checksum
enrichment and persistence.  `none` is the nil success return. -/
def run (collectBuildInfo : Bool) (npmArgs : List String) (env : RunEnv) :
    Option String :=
  match env.prepareError with
  | some e => some e
  | none =>
  match env.createTempNpmrcError with
  | some e => some (restoreNpmrcAndError env.restoreError e)
  | none =>
  let r := runInstallOrCi collectBuildInfo npmArgs env.installError
  match r.2 with
  | some e => some (restoreNpmrcAndError env.restoreError e)
  | none =>
  match env.restoreError with
  | some e => some e
  | none =>
  if !r.1 then none
  else
  match env.setDependenciesError with
  | some e => some e
  | none =>
  match env.collectChecksumsError with
  | some e => some e
  | none => env.saveDataError

/-- `setDependenciesList` of installorci.go, generalized to an arbitrary
sequence of scope walks: each walk `(scope, seed, forest)` is one
`prepareDependencies` invocation, every invocation merging into the same
graph, starting from the freshly allocated empty map. -/
def runWalks (walks : List (String × List String × DepForest)) : Graph :=
  walks.foldl (fun g w => parseDependencies w.1 w.2.1 g w.2.2) []

/-- Every node of the graph has a duplicate-free scope list. -/
def ScopesNodup (g : Graph) : Prop :=
  ∀ k d, lookupDep g k = some d → d.scopes.Nodup

/-- `g'` keeps every node of `g`, never dropping a recorded scope. -/
def ScopesExtend (g g' : Graph) : Prop :=
  ∀ k d, lookupDep g k = some d →
    ∃ d', lookupDep g' k = some d' ∧ ∀ x ∈ d.scopes, x ∈ d'.scopes

theorem scopeAlreadyExists_iff (s : String) :
    ∀ l : List String, scopeAlreadyExists s l = true ↔ s ∈ l
  | [] => by simp [scopeAlreadyExists]
  | e :: rest => by
    by_cases h : e = s
    · subst h; simp [scopeAlreadyExists]
    · simp [scopeAlreadyExists, h, scopeAlreadyExists_iff s rest, Ne.symm h]

theorem lookupDep_setDep_self : ∀ (g : Graph) (key : String) (d : Dependency),
    lookupDep (setDep g key d) key = some d
  | [], _, _ => by simp [setDep, lookupDep]
  | (k, e) :: rest, key, d => by
    by_cases h : k = key
    · simp [setDep, h, lookupDep]
    · simp [setDep, h, lookupDep, lookupDep_setDep_self rest key d]

theorem lookupDep_setDep_ne :
    ∀ (g : Graph) {key k : String}, k ≠ key → ∀ d : Dependency,
      lookupDep (setDep g key d) k = lookupDep g k
  | [], key, k, h, d => by simp [setDep, lookupDep, Ne.symm h]
  | (k0, e) :: rest, key, k, h, d => by
    by_cases h0 : k0 = key
    · subst h0
      simp [setDep, lookupDep, Ne.symm h]
    · by_cases hk : k0 = k
      · subst hk
        simp [setDep, h0, lookupDep]
      · simp [setDep, h0, lookupDep, hk, lookupDep_setDep_ne rest h d]

/-- Full characterization of one `appendDependency` step: every other key
is untouched, and the written key either is created with the single scope
and path, or extends the existing node, appending the scope only when it
was absent. -/
theorem lookupDep_appendDependency (g : Graph) (depKey n v s : String)
    (p : List String) (k : String) :
    (k ≠ depKey ∧
      lookupDep (appendDependency g depKey n v s p) k = lookupDep g k) ∨
    (k = depKey ∧ ∃ d',
      lookupDep (appendDependency g depKey n v s p) k = some d' ∧ s ∈ d'.scopes ∧
      ((lookupDep g k = none ∧ d'.scopes = [s] ∧ d'.pathToRoot = [p]) ∨
       (∃ d, lookupDep g k = some d ∧
         (d'.scopes = d.scopes ∧ s ∈ d.scopes ∨
          d'.scopes = d.scopes ++ [s] ∧ s ∉ d.scopes) ∧
         d'.pathToRoot = d.pathToRoot ++ [p]))) := by
  by_cases hk : k = depKey
  · subst hk
    right
    refine ⟨rfl, ?_⟩
    unfold appendDependency
    cases hg : lookupDep g k with
    | none =>
      exact ⟨_, lookupDep_setDep_self g k _, by simp, Or.inl ⟨rfl, by simp, by simp⟩⟩
    | some d =>
      by_cases hs : scopeAlreadyExists s d.scopes
      · have hmem : s ∈ d.scopes := (scopeAlreadyExists_iff s d.scopes).mp hs
        exact ⟨_, lookupDep_setDep_self g k _, by simpa [hs] using hmem,
          Or.inr ⟨d, rfl, Or.inl ⟨by simp [hs], hmem⟩, by simp [hs]⟩⟩
      · have hmem : s ∉ d.scopes := fun h =>
          hs ((scopeAlreadyExists_iff s d.scopes).mpr h)
        exact ⟨_, lookupDep_setDep_self g k _, by simp [hs],
          Or.inr ⟨d, rfl, Or.inr ⟨by simp [hs], hmem⟩, by simp [hs]⟩⟩
  · left
    refine ⟨hk, ?_⟩
    unfold appendDependency
    cases hg : lookupDep g depKey with
    | none => exact lookupDep_setDep_ne g hk _
    | some d => exact lookupDep_setDep_ne g hk _

theorem scopesExtend_refl (g : Graph) : ScopesExtend g g :=
  fun _ d h => ⟨d, h, fun _ hx => hx⟩

theorem scopesExtend_trans {g1 g2 g3 : Graph} (h12 : ScopesExtend g1 g2)
    (h23 : ScopesExtend g2 g3) : ScopesExtend g1 g3 := by
  intro k d h
  obtain ⟨d2, h2, hs2⟩ := h12 k d h
  obtain ⟨d3, h3, hs3⟩ := h23 k d2 h2
  exact ⟨d3, h3, fun x hx => hs3 x (hs2 x hx)⟩

theorem scopesExtend_appendDependency (g : Graph) (depKey n v s : String)
    (p : List String) : ScopesExtend g (appendDependency g depKey n v s p) := by
  intro k d h
  rcases lookupDep_appendDependency g depKey n v s p k with
    ⟨_, heq⟩ | ⟨_, d', hd', _, hcase⟩
  · exact ⟨d, heq ▸ h, fun _ hx => hx⟩
  · rcases hcase with ⟨hnone, _, _⟩ | ⟨d0, hd0, hsc, _⟩
    · rw [h] at hnone
      cases hnone
    · rw [h] at hd0
      obtain rfl : d = d0 := by injection hd0
      rcases hsc with ⟨heq2, _⟩ | ⟨heq2, _⟩
      · exact ⟨d', hd', fun x hx => heq2 ▸ hx⟩
      · exact ⟨d', hd', fun x hx => by rw [heq2]; exact List.mem_append_left _ hx⟩

theorem scopesNodup_appendDependency {g : Graph} (hg : ScopesNodup g)
    (depKey n v s : String) (p : List String) :
    ScopesNodup (appendDependency g depKey n v s p) := by
  intro k d' h
  rcases lookupDep_appendDependency g depKey n v s p k with
    ⟨_, heq⟩ | ⟨_, d2, hd2, _, hcase⟩
  · exact hg k d' (heq ▸ h)
  · obtain rfl : d' = d2 := by
      have := h.symm.trans hd2
      injection this
    rcases hcase with ⟨_, hsc, _⟩ | ⟨d0, hd0, hsc, _⟩
    · rw [hsc]
      exact List.nodup_singleton s
    · rcases hsc with ⟨heq2, _⟩ | ⟨heq2, hmem⟩
      · rw [heq2]
        exact hg k d0 hd0
      · rw [heq2]
        simp only [List.nodup_append, List.nodup_singleton, true_and]
        exact ⟨hg k d0 hd0, by simpa using hmem⟩

theorem scope_mem_appendDependency (g : Graph) (depKey n v s : String)
    (p : List String) :
    ∃ d', lookupDep (appendDependency g depKey n v s p) depKey = some d' ∧
      s ∈ d'.scopes := by
  rcases lookupDep_appendDependency g depKey n v s p depKey with
    ⟨hne, _⟩ | ⟨_, d', hd', hs, _⟩
  · exact absurd rfl hne
  · exact ⟨d', hd', hs⟩

theorem lookupDep_appendDependency_ne_none {g : Graph} {depKey n v s : String}
    {p : List String} {key : String}
    (h : lookupDep (appendDependency g depKey n v s p) key ≠ none) :
    key = depKey ∨ lookupDep g key ≠ none := by
  rcases lookupDep_appendDependency g depKey n v s p key with
    ⟨_, heq⟩ | ⟨hk, _⟩
  · exact Or.inr (heq ▸ h)
  · exact Or.inl hk

theorem paths_appendDependency {g : Graph} {depKey n v s : String}
    {p : List String} (key : String) (d' : Dependency)
    (h : lookupDep (appendDependency g depKey n v s p) key = some d') :
    ∀ q ∈ d'.pathToRoot,
      (∃ d, lookupDep g key = some d ∧ q ∈ d.pathToRoot) ∨ q = p := by
  intro q hq
  rcases lookupDep_appendDependency g depKey n v s p key with
    ⟨_, heq⟩ | ⟨_, d2, hd2, _, hcase⟩
  · exact Or.inl ⟨d', heq ▸ h, hq⟩
  · obtain rfl : d' = d2 := by
      have := h.symm.trans hd2
      injection this
    rcases hcase with ⟨_, _, hpr⟩ | ⟨d0, hd0, _, hpr⟩
    · rw [hpr] at hq
      exact Or.inr (by simpa using hq)
    · rw [hpr] at hq
      rcases List.mem_append.mp hq with hq0 | hq0
      · exact Or.inl ⟨d0, hd0, hq0⟩
      · exact Or.inr (by simpa using hq0)

theorem scopesExtend_parseDependencies (f : DepForest) :
    ∀ (s : String) (p : List String) (g : Graph),
      ScopesExtend g (parseDependencies s p g f) := by
  induction f with
  | nil => intro s p g; simpa [parseDependencies] using scopesExtend_refl g
  | cons name version children rest ihc ihr =>
    intro s p g
    cases version with
    | none =>
      simp only [parseDependencies]
      exact scopesExtend_trans (ihc _ _ _) (ihr _ _ _)
    | some v =>
      simp only [parseDependencies]
      exact scopesExtend_trans (scopesExtend_appendDependency _ _ _ _ _ _)
        (scopesExtend_trans (ihc _ _ _) (ihr _ _ _))

theorem scopesNodup_parseDependencies (f : DepForest) :
    ∀ (s : String) (p : List String) (g : Graph),
      ScopesNodup g → ScopesNodup (parseDependencies s p g f) := by
  induction f with
  | nil => intro s p g hg; simpa [parseDependencies] using hg
  | cons name version children rest ihc ihr =>
    intro s p g hg
    cases version with
    | none =>
      simp only [parseDependencies]
      exact ihr _ _ _ (ihc _ _ _ hg)
    | some v =>
      simp only [parseDependencies]
      exact ihr _ _ _ (ihc _ _ _ (scopesNodup_appendDependency hg _ _ _ _ _))

theorem scope_mem_parseDependencies (f : DepForest) :
    ∀ (s : String) (p : List String) (g : Graph) (key : String),
      forestHasKey f key = true →
      ∃ d, lookupDep (parseDependencies s p g f) key = some d ∧ s ∈ d.scopes := by
  induction f with
  | nil =>
    intro s p g key h
    simp [forestHasKey] at h
  | cons name version children rest ihc ihr =>
    intro s p g key h
    cases version with
    | none =>
      simp only [parseDependencies]
      simp [forestHasKey] at h
      rcases h with h | h
      · obtain ⟨d, hd, hs⟩ := ihc s _ g key h
        obtain ⟨d', hd', hs'⟩ := scopesExtend_parseDependencies rest s _ _ key d hd
        exact ⟨d', hd', hs' s hs⟩
      · exact ihr s _ _ key h
    | some v =>
      simp only [parseDependencies]
      simp [forestHasKey] at h
      rcases h with (h | h) | h
      · subst h
        obtain ⟨d, hd, hs⟩ := scope_mem_appendDependency g _ name v s p
        obtain ⟨d1, hd1, hs1⟩ := scopesExtend_parseDependencies children s _ _ _ d hd
        obtain ⟨d2, hd2, hs2⟩ := scopesExtend_parseDependencies rest s _ _ _ d1 hd1
        exact ⟨d2, hd2, hs2 s (hs1 s hs)⟩
      · obtain ⟨d, hd, hs⟩ := ihc s _ _ key h
        obtain ⟨d', hd', hs'⟩ := scopesExtend_parseDependencies rest s _ _ key d hd
        exact ⟨d', hd', hs' s hs⟩
      · exact ihr s _ _ key h

theorem keys_parseDependencies (f : DepForest) :
    ∀ (s : String) (p : List String) (g : Graph) (key : String),
      lookupDep (parseDependencies s p g f) key ≠ none →
      lookupDep g key ≠ none ∨ forestHasKey f key = true := by
  induction f with
  | nil =>
    intro s p g key h
    left
    simpa [parseDependencies] using h
  | cons name version children rest ihc ihr =>
    intro s p g key h
    cases version with
    | none =>
      simp only [parseDependencies] at h
      rcases ihr s _ _ key h with h2 | h2
      · rcases ihc s _ _ key h2 with h3 | h3
        · exact Or.inl h3
        · exact Or.inr (by simp [forestHasKey, h3])
      · exact Or.inr (by simp [forestHasKey, h2])
    | some v =>
      simp only [parseDependencies] at h
      rcases ihr s _ _ key h with h2 | h2
      · rcases ihc s _ _ key h2 with h3 | h3
        · rcases lookupDep_appendDependency_ne_none h3 with h4 | h4
          · exact Or.inr (by simp [forestHasKey, h4])
          · exact Or.inl h4
        · exact Or.inr (by simp [forestHasKey, h3])
      · exact Or.inr (by simp [forestHasKey, h2])

theorem paths_parseDependencies (f : DepForest) :
    ∀ (s : String) (p : List String) (g : Graph) (key : String) (d' : Dependency),
      lookupDep (parseDependencies s p g f) key = some d' →
      ∀ q ∈ d'.pathToRoot,
        (∃ d, lookupDep g key = some d ∧ q ∈ d.pathToRoot) ∨ p <:+ q := by
  induction f with
  | nil =>
    intro s p g key d' h q hq
    exact Or.inl ⟨d', by simpa [parseDependencies] using h, hq⟩
  | cons name version children rest ihc ihr =>
    intro s p g key d' h q hq
    simp only [parseDependencies] at h
    cases version with
    | none =>
      simp only at h
      rcases ihr s _ _ key d' h q hq with ⟨d2, hd2, hq2⟩ | hsuf
      · rcases ihc s _ _ key d2 hd2 q hq2 with ⟨d3, hd3, hq3⟩ | hsuf
        · exact Or.inl ⟨d3, hd3, hq3⟩
        · exact Or.inr ((List.suffix_cons _ _).trans hsuf)
      · exact Or.inr hsuf
    | some v =>
      simp only at h
      rcases ihr s _ _ key d' h q hq with ⟨d2, hd2, hq2⟩ | hsuf
      · rcases ihc s _ _ key d2 hd2 q hq2 with ⟨d3, hd3, hq3⟩ | hsuf
        · rcases paths_appendDependency key d3 hd3 q hq3 with ⟨d4, hd4, hq4⟩ | hqp
          · exact Or.inl ⟨d4, hd4, hq4⟩
          · exact Or.inr (hqp ▸ List.suffix_refl q)
        · exact Or.inr ((List.suffix_cons _ _).trans hsuf)
      · exact Or.inr hsuf

theorem pathRecordedFor_parseDependencies (f : DepForest) :
    ∀ (s : String) (p : List String) (g : Graph) (key : String) (d : Dependency),
      lookupDep (parseDependencies s p g f) key = some d →
      ∀ q ∈ d.pathToRoot,
        (∃ d0, lookupDep g key = some d0 ∧ q ∈ d0.pathToRoot) ∨
        pathRecordedFor f p key q = true := by
  induction f with
  | nil =>
    intro s p g key d h q hq
    exact Or.inl ⟨d, by simpa [parseDependencies] using h, hq⟩
  | cons name version children rest ihc ihr =>
    intro s p g key d h q hq
    cases version with
    | none =>
      simp only [parseDependencies] at h
      rcases ihr s _ _ key d h q hq with ⟨d2, hd2, hq2⟩ | hrec
      · rcases ihc s _ _ key d2 hd2 q hq2 with ⟨d3, hd3, hq3⟩ | hrec
        · exact Or.inl ⟨d3, hd3, hq3⟩
        · refine Or.inr ?_
          simp at hrec
          simp [pathRecordedFor, hrec]
      · exact Or.inr (by simp [pathRecordedFor, hrec])
    | some v =>
      simp only [parseDependencies, Option.getD_some] at h
      rcases ihr s _ _ key d h q hq with ⟨d2, hd2, hq2⟩ | hrec
      · rcases ihc s _ _ key d2 hd2 q hq2 with ⟨d3, hd3, hq3⟩ | hrec
        · rcases lookupDep_appendDependency g (name ++ ":" ++ v) name v s p key with
            ⟨_, heq⟩ | ⟨hk, d4, hd4, _, hcase⟩
          · exact Or.inl ⟨d3, heq ▸ hd3, hq3⟩
          · obtain rfl : d3 = d4 := by
              have := hd3.symm.trans hd4
              injection this
            rcases hcase with ⟨_, _, hpr⟩ | ⟨d5, hd5, _, hpr⟩
            · rw [hpr] at hq3
              have hqp : q = p := by simpa using hq3
              exact Or.inr (by simp [pathRecordedFor, hk, hqp])
            · rw [hpr] at hq3
              rcases List.mem_append.mp hq3 with hq4 | hq4
              · exact Or.inl ⟨d5, hd5, hq4⟩
              · have hqp : q = p := by simpa using hq4
                exact Or.inr (by simp [pathRecordedFor, hk, hqp])
        · exact Or.inr (by simp [pathRecordedFor, hrec])
      · exact Or.inr (by simp [pathRecordedFor, hrec])

theorem pathRecordedFor_chain (f : DepForest) :
    ∀ (p : List String) (key : String) (q : List String),
      pathRecordedFor f p key q = true → ∃ chain, q = chain ++ p := by
  induction f with
  | nil =>
    intro p key q h
    simp [pathRecordedFor] at h
  | cons name version children rest ihc ihr =>
    intro p key q h
    simp only [pathRecordedFor, Bool.or_eq_true, Bool.and_eq_true] at h
    rcases h with (⟨⟨_, _⟩, hq⟩ | h) | h
    · refine ⟨[], ?_⟩
      rw [List.nil_append]
      exact of_decide_eq_true hq
    · obtain ⟨chain, hchain⟩ := ihc _ key q h
      refine ⟨chain ++ [name ++ ":" ++ version.getD ""], ?_⟩
      rw [hchain]
      simp
    · exact ihr p key q h

theorem scopesNodup_foldWalks :
    ∀ (walks : List (String × List String × DepForest)) (g : Graph),
      ScopesNodup g →
      ScopesNodup (walks.foldl (fun g w => parseDependencies w.1 w.2.1 g w.2.2) g)
  | [], g, hg => by simpa using hg
  | w :: ws, g, hg => by
    simp only [List.foldl_cons]
    exact scopesNodup_foldWalks ws _ (scopesNodup_parseDependencies _ _ _ _ hg)

theorem scopesExtend_foldWalks :
    ∀ (walks : List (String × List String × DepForest)) (g : Graph),
      ScopesExtend g (walks.foldl (fun g w => parseDependencies w.1 w.2.1 g w.2.2) g)
  | [], g => by simpa using scopesExtend_refl g
  | w :: ws, g => by
    simp only [List.foldl_cons]
    exact scopesExtend_trans (scopesExtend_parseDependencies _ _ _ _)
      (scopesExtend_foldWalks ws _)

theorem scope_mem_foldWalks :
    ∀ (walks : List (String × List String × DepForest)) (g : Graph)
      (w : String × List String × DepForest), w ∈ walks → ∀ key : String,
      forestHasKey w.2.2 key = true →
      ∃ d, lookupDep (walks.foldl (fun g w => parseDependencies w.1 w.2.1 g w.2.2) g)
             key = some d ∧ w.1 ∈ d.scopes
  | [], _, w, hw, _, _ => absurd hw (List.not_mem_nil w)
  | w0 :: ws, g, w, hw, key, h => by
    simp only [List.foldl_cons]
    rcases List.mem_cons.mp hw with rfl | hw'
    · obtain ⟨d, hd, hs⟩ := scope_mem_parseDependencies w.2.2 w.1 w.2.1 g key h
      obtain ⟨d', hd', hs'⟩ := scopesExtend_foldWalks ws _ key d hd
      exact ⟨d', hd', hs' _ hs⟩
    · exact scope_mem_foldWalks ws _ w hw' key h

/-- C3: for every dependency tree input and every interleaving of the
dev-scope and prod-scope parsing walks (any sequence of scope walks merged
into the one graph), no node's scope list ever contains a duplicate, and a
dependency listed in both a dev walk and a prod walk ends with "dev" and
"prod" each recorded exactly once. -/
theorem scopes_recorded_once_per_walks
    (walks : List (String × List String × DepForest)) (k : String)
    (wd wp : String × List String × DepForest) :
    (∀ key d, lookupDep (runWalks walks) key = some d → d.scopes.Nodup) ∧
    (wd ∈ walks → wp ∈ walks → wd.1 = "dev" → wp.1 = "prod" →
      forestHasKey wd.2.2 k = true → forestHasKey wp.2.2 k = true →
      ∃ dk, lookupDep (runWalks walks) k = some dk ∧
        dk.scopes.count "dev" = 1 ∧ dk.scopes.count "prod" = 1) := by
  have hempty : ScopesNodup ([] : Graph) := by
    intro key d h
    simp [lookupDep] at h
  constructor
  · exact fun key d h => scopesNodup_foldWalks walks [] hempty key d h
  · intro hwd hwp hdev hprod hkd hkp
    obtain ⟨d1, hd1, hs1⟩ := scope_mem_foldWalks walks [] wd hwd k hkd
    obtain ⟨d2, hd2, hs2⟩ := scope_mem_foldWalks walks [] wp hwp k hkp
    obtain rfl : d1 = d2 := by
      have := hd1.symm.trans hd2
      injection this
    have hnd : d1.scopes.Nodup := scopesNodup_foldWalks walks [] hempty k d1 hd1
    rw [hdev] at hs1
    rw [hprod] at hs2
    exact ⟨d1, hd1, List.count_eq_one_of_mem hnd hs1,
      List.count_eq_one_of_mem hnd hs2⟩

/-- C3 witness: a dependency listed in a dev walk and a prod walk of the
same tree carries each scope exactly once. -/
theorem scopes_recorded_once_per_walks_witness :
    ∃ dk, lookupDep (runWalks
        [("dev", ["app@1.0.0"], .cons "a" (some "1.0.0") .nil .nil),
         ("prod", ["app@1.0.0"], .cons "a" (some "1.0.0") .nil .nil)])
        "a:1.0.0" = some dk ∧
      dk.scopes.count "dev" = 1 ∧ dk.scopes.count "prod" = 1 :=
  (scopes_recorded_once_per_walks
      [("dev", ["app@1.0.0"], .cons "a" (some "1.0.0") .nil .nil),
       ("prod", ["app@1.0.0"], .cons "a" (some "1.0.0") .nil .nil)]
      "a:1.0.0"
      ("dev", ["app@1.0.0"], .cons "a" (some "1.0.0") .nil .nil)
      ("prod", ["app@1.0.0"], .cons "a" (some "1.0.0") .nil .nil)).2
    (List.mem_cons_self _ _)
    (List.mem_cons_of_mem _ (List.mem_cons_self _ _))
    rfl rfl (by decide) (by decide)

/-- C1 counterexample: in the concrete scenario the recorded path entry of
a:1.0.0 is [app@1.0.0] — the parent chain only — not the claimed
[a:1.0.0, app@1.0.0] starting with the node's own identity. -/
theorem path_entry_excludes_own_identity :
    (lookupDep
        (parseDependencies "prod" ["app@1.0.0"] []
          (.cons "a" (some "1.0.0") (.cons "b" (some "2.0.0") .nil .nil) .nil))
        "a:1.0.0").map Dependency.pathToRoot = some [["app@1.0.0"]] ∧
    (some [["app@1.0.0"]] ≠
      some [["a:1.0.0", "app@1.0.0"]] : Prop) := by
  exact ⟨by decide, by decide⟩

/-- C1 amended: the scenario tree parsed with scope "prod" from root module
app@1.0.0 yields exactly the nodes a:1.0.0 (scopes {prod}, single path
entry [app@1.0.0]) and b:2.0.0 (scopes {prod}, single path entry
[a:1.0.0, app@1.0.0]); a's chain of strict ancestors is empty (so its
entry is the seed, not a chain led by its own identity); and in general
every recorded path entry is, per `pathRecordedFor`, the
nearest-ancestor-first chain of the keys of the strict ancestors of one of
the node's versioned occurrences — the direct parent first, the node's own
key not added for its own occurrence — followed by the seeding
build-module identity path (so every entry ends with that seed). -/
theorem parse_scenario_and_path_suffix :
    parseDependencies "prod" ["app@1.0.0"] []
        (.cons "a" (some "1.0.0") (.cons "b" (some "2.0.0") .nil .nil) .nil) =
      [("a:1.0.0", { name := "a", version := "1.0.0", scopes := ["prod"],
                     fileType := "", checksum := none,
                     pathToRoot := [["app@1.0.0"]] }),
       ("b:2.0.0", { name := "b", version := "2.0.0", scopes := ["prod"],
                     fileType := "", checksum := none,
                     pathToRoot := [["a:1.0.0", "app@1.0.0"]] })] ∧
    pathRecordedFor
        (.cons "a" (some "1.0.0") (.cons "b" (some "2.0.0") .nil .nil) .nil)
        ["app@1.0.0"] "a:1.0.0" ["app@1.0.0"] = true ∧
    pathRecordedFor
        (.cons "a" (some "1.0.0") (.cons "b" (some "2.0.0") .nil .nil) .nil)
        ["app@1.0.0"] "a:1.0.0" ["a:1.0.0", "app@1.0.0"] = false ∧
    pathRecordedFor
        (.cons "a" (some "1.0.0") (.cons "b" (some "2.0.0") .nil .nil) .nil)
        ["app@1.0.0"] "b:2.0.0" ["a:1.0.0", "app@1.0.0"] = true ∧
    ∀ (f : DepForest) (scope : String) (p : List String) (key : String)
      (d : Dependency),
      lookupDep (parseDependencies scope p [] f) key = some d →
      ∀ q ∈ d.pathToRoot,
        pathRecordedFor f p key q = true ∧ ∃ chain, q = chain ++ p := by
  refine ⟨by decide, by decide, by decide, by decide, ?_⟩
  intro f scope p key d h q hq
  rcases pathRecordedFor_parseDependencies f scope p [] key d h q hq with
    ⟨d0, hd0, _⟩ | hrec
  · simp [lookupDep] at hd0
  · exact ⟨hrec, pathRecordedFor_chain f p key q hrec⟩

/-- C1 amended witness: in the scenario, the entry recorded for b:2.0.0 is
the ancestor chain of its occurrence (its parent a:1.0.0, then the build
module's identity seed). -/
theorem parse_scenario_and_path_suffix_witness :
    pathRecordedFor
        (.cons "a" (some "1.0.0") (.cons "b" (some "2.0.0") .nil .nil) .nil)
        ["app@1.0.0"] "b:2.0.0" ["a:1.0.0", "app@1.0.0"] = true ∧
    ∃ chain, ["a:1.0.0", "app@1.0.0"] = chain ++ ["app@1.0.0"] :=
  parse_scenario_and_path_suffix.2.2.2.2
    (.cons "a" (some "1.0.0") (.cons "b" (some "2.0.0") .nil .nil) .nil)
    "prod" ["app@1.0.0"] "b:2.0.0"
    { name := "b", version := "2.0.0", scopes := ["prod"], fileType := "",
      checksum := none, pathToRoot := [["a:1.0.0", "app@1.0.0"]] }
    (by decide) ["a:1.0.0", "app@1.0.0"] (by decide)

/-- C4: a dependency entry with no `version` field is never inserted into
the graph — every key of the parsed graph comes from an entry with a
present version — and the walk of the rest of the tree continues: in the
concrete tree whose root entry a lacks a version, parsing succeeds and
yields exactly the versioned child b:2.0.0 (reached through the
placeholder key "a:"), with no node for a. -/
theorem missing_version_excluded :
    (∀ (f : DepForest) (scope : String) (p : List String) (key : String),
       lookupDep (parseDependencies scope p [] f) key ≠ none →
       forestHasKey f key = true) ∧
    parseDependencies "prod" ["app@1.0.0"] []
        (.cons "a" none (.cons "b" (some "2.0.0") .nil .nil) .nil) =
      [("b:2.0.0", { name := "b", version := "2.0.0", scopes := ["prod"],
                     fileType := "", checksum := none,
                     pathToRoot := [["a:", "app@1.0.0"]] })] ∧
    forestHasKey
        (.cons "a" none (.cons "b" (some "2.0.0") .nil .nil) .nil) "a:" = false := by
  refine ⟨?_, by decide, by decide⟩
  intro f scope p key h
  rcases keys_parseDependencies f scope p [] key h with h0 | h0
  · simp [lookupDep] at h0
  · exact h0

/-- C4 witness: a versioned entry is a key of the parsed graph, so the
general statement applies to it. -/
theorem missing_version_excluded_witness :
    forestHasKey (.cons "c" (some "3.0.0") .nil .nil) "c:3.0.0" = true :=
  missing_version_excluded.1 (.cons "c" (some "3.0.0") .nil .nil)
    "prod" ["app@1.0.0"] "c:3.0.0" (by decide)

theorem transformDependencies_ids_perm :
    ∀ g : Graph,
      ((transformDependencies g).1.map BuildInfoDependency.id ++
       (transformDependencies g).2.map BuildInfoDependency.id).Perm
        (g.map fun kd => kd.2.name ++ ":" ++ kd.2.version)
  | [] => by simp [transformDependencies]
  | (k, d) :: rest => by
    simp only [transformDependencies, List.map_cons]
    by_cases h : d.checksum = none
    · simp only [h, ne_eq, not_true_eq_false, if_false]
      exact (List.perm_middle.trans
        ((transformDependencies_ids_perm rest).cons _)).symm.symm
    · simp only [ne_eq, h, not_false_eq_true, if_true, List.map_cons,
        List.cons_append]
      exact (transformDependencies_ids_perm rest).cons _

theorem transformDependencies_mem :
    ∀ (g : Graph) (kd : String × Dependency), kd ∈ g →
      (kd.2.checksum ≠ none →
        toBuildInfoDependency kd.2 ∈ (transformDependencies g).1) ∧
      (kd.2.checksum = none →
        toBuildInfoDependency kd.2 ∈ (transformDependencies g).2)
  | [], kd, h => absurd h (List.not_mem_nil kd)
  | kd0 :: rest, kd, h => by
    rcases List.mem_cons.mp h with rfl | h'
    · simp only [transformDependencies]
      constructor
      · intro hc
        simp [hc]
      · intro hc
        simp [hc]
    · obtain ⟨h1, h2⟩ := transformDependencies_mem rest kd h'
      simp only [transformDependencies]
      constructor
      · intro hc
        by_cases h0 : kd0.2.checksum = none <;> simp [h0, h1 hc]
      · intro hc
        by_cases h0 : kd0.2.checksum = none <;> simp [h0, h2 hc]

/-- C6: over a well-formed graph (keys are the `name:version` identities
and are distinct), `transformDependencies` places every node in exactly one
of the two output lists — resolved when its checksum is present, missing
when absent — and the identities of the two lists together are exactly the
graph's keys, with no identity in both. -/
theorem transform_partitions_nodes (g : Graph)
    (hkeys : ∀ kd ∈ g, kd.1 = kd.2.name ++ ":" ++ kd.2.version)
    (hnodup : (g.map Prod.fst).Nodup) :
    ((transformDependencies g).1.map BuildInfoDependency.id ++
     (transformDependencies g).2.map BuildInfoDependency.id).Perm
      (g.map Prod.fst) ∧
    (∀ i, i ∈ (transformDependencies g).1.map BuildInfoDependency.id →
       i ∉ (transformDependencies g).2.map BuildInfoDependency.id) ∧
    (∀ kd ∈ g,
      (kd.2.checksum ≠ none →
        toBuildInfoDependency kd.2 ∈ (transformDependencies g).1) ∧
      (kd.2.checksum = none →
        toBuildInfoDependency kd.2 ∈ (transformDependencies g).2)) := by
  have hmapeq : (g.map fun kd => kd.2.name ++ ":" ++ kd.2.version) =
      g.map Prod.fst :=
    (List.map_congr_left fun kd hkd => (hkeys kd hkd).symm)
  have hperm :
      ((transformDependencies g).1.map BuildInfoDependency.id ++
       (transformDependencies g).2.map BuildInfoDependency.id).Perm
        (g.map Prod.fst) := hmapeq ▸ transformDependencies_ids_perm g
  refine ⟨hperm, ?_, fun kd hkd => transformDependencies_mem g kd hkd⟩
  have hnd : ((transformDependencies g).1.map BuildInfoDependency.id ++
      (transformDependencies g).2.map BuildInfoDependency.id).Nodup :=
    hperm.symm.nodup hnodup
  intro i h1 h2
  exact ((List.nodup_append.mp hnd).2.2) h1 h2

/-- C6 witness: a two-node graph with one resolved and one missing node is
partitioned accordingly. -/
theorem transform_partitions_nodes_witness :
    toBuildInfoDependency
        { name := "a", version := "1.0.0", scopes := ["prod"], fileType := "tgz",
          checksum := some { sha1 := "s", md5 := "m" }, pathToRoot := [] } ∈
      (transformDependencies
        [("a:1.0.0",
          { name := "a", version := "1.0.0", scopes := ["prod"], fileType := "tgz",
            checksum := some { sha1 := "s", md5 := "m" }, pathToRoot := [] }),
         ("b:2.0.0",
          { name := "b", version := "2.0.0", scopes := ["prod"], fileType := "",
            checksum := none, pathToRoot := [] })]).1 :=
  ((transform_partitions_nodes
      [("a:1.0.0",
        { name := "a", version := "1.0.0", scopes := ["prod"], fileType := "tgz",
          checksum := some { sha1 := "s", md5 := "m" }, pathToRoot := [] }),
       ("b:2.0.0",
        { name := "b", version := "2.0.0", scopes := ["prod"], fileType := "",
          checksum := none, pathToRoot := [] })]
      (by decide) (by decide)).2.2
    ("a:1.0.0",
      { name := "a", version := "1.0.0", scopes := ["prod"], fileType := "tgz",
        checksum := some { sha1 := "s", md5 := "m" }, pathToRoot := [] })
    (List.mem_cons_self _ _)).1 (by decide)

theorem lookupDep_map_value (h : Dependency → Dependency) :
    ∀ (g : Graph) (k : String),
      lookupDep (g.map fun kd => (kd.1, h kd.2)) k = (lookupDep g k).map h
  | [], _ => rfl
  | (k0, d0) :: rest, k => by
    by_cases hk : k0 = k <;>
      simp [lookupDep, hk, lookupDep_map_value h rest k]

theorem head_filterMap_first {α : Type} (f : α → Option String) :
    ∀ (l : List α) (e : String),
      (l.filterMap f).head? = some e →
      ∃ l1 a l2, l = l1 ++ a :: l2 ∧ f a = some e ∧ ∀ a' ∈ l1, f a' = none
  | [], e, h => by simp at h
  | a :: rest, e, h => by
    cases hf : f a with
    | some e0 =>
      simp only [List.filterMap_cons, hf, List.head?_cons, Option.some.injEq] at h
      exact ⟨[], a, rest, by simp, by rw [hf, h], by simp⟩
    | none =>
      simp only [List.filterMap_cons, hf] at h
      obtain ⟨l1, a1, l2, hl, ha, hnone⟩ := head_filterMap_first f rest e h
      refine ⟨a :: l1, a1, l2, by simp [hl], ha, ?_⟩
      intro a' ha'
      rcases List.mem_cons.mp ha' with rfl | h'
      · exact hf
      · exact hnone a' h'

theorem collectDependenciesChecksums_graph (info : DependencyInfoOracle)
    (g : Graph) :
    (collectDependenciesChecksums info g).1 =
      g.map fun kd => (kd.1, (runDependencyInfoTask info kd.2).1) := by
  simp [collectDependenciesChecksums, List.map_map, Function.comp]

theorem collectDependenciesChecksums_error (info : DependencyInfoOracle)
    (g : Graph) :
    (collectDependenciesChecksums info g).2 =
      (g.filterMap fun kd => (runDependencyInfoTask info kd.2).2).head? := by
  simp only [collectDependenciesChecksums, List.filterMap_map]
  rfl

/-- C5: the enrichment pass runs the per-node task for every node — each
node's entry in the result graph is exactly its own task's result, whatever
the other tasks returned — the pass succeeds iff no task recorded an error
and otherwise returns the first recorded error in task order, and a task
whose lookup reports "not found" (nil checksum, nil error) leaves its node
untouched and records no error. -/
theorem enrichment_attempts_every_node (info : DependencyInfoOracle) (g : Graph) :
    (∀ k d, lookupDep g k = some d →
       lookupDep (collectDependenciesChecksums info g).1 k =
         some (runDependencyInfoTask info d).1) ∧
    ((collectDependenciesChecksums info g).2 = none ↔
       ∀ kd ∈ g, (runDependencyInfoTask info kd.2).2 = none) ∧
    (∀ e, (collectDependenciesChecksums info g).2 = some e →
       ∃ g1 kd g2, g = g1 ++ kd :: g2 ∧
         (runDependencyInfoTask info kd.2).2 = some e ∧
         ∀ kd' ∈ g1, (runDependencyInfoTask info kd'.2).2 = none) ∧
    (∀ d fileType, info d.name d.version = (none, fileType, none) →
       runDependencyInfoTask info d = (d, none)) := by
  refine ⟨?_, ?_, ?_, ?_⟩
  · intro k d h
    rw [collectDependenciesChecksums_graph,
      lookupDep_map_value (fun d => (runDependencyInfoTask info d).1) g k, h]
    rfl
  · rw [collectDependenciesChecksums_error]
    simp [List.head?_eq_none_iff, List.filterMap_eq_nil_iff]
  · intro e h
    rw [collectDependenciesChecksums_error] at h
    exact head_filterMap_first _ g e h
  · intro d fileType h
    simp [runDependencyInfoTask, h]

/-- C5 witness: with a "not found" oracle, the single node's task leaves it
untouched in the result graph. -/
theorem enrichment_attempts_every_node_witness :
    lookupDep
        (collectDependenciesChecksums (fun _ _ => (none, "", none))
          [("a:1.0.0",
            { name := "a", version := "1.0.0", scopes := ["prod"], fileType := "",
              checksum := none, pathToRoot := [] })]).1
        "a:1.0.0" =
      some (runDependencyInfoTask (fun _ _ => (none, "", none))
        { name := "a", version := "1.0.0", scopes := ["prod"], fileType := "",
          checksum := none, pathToRoot := [] }).1 :=
  (enrichment_attempts_every_node (fun _ _ => (none, "", none))
      [("a:1.0.0",
        { name := "a", version := "1.0.0", scopes := ["prod"], fileType := "",
          checksum := none, pathToRoot := [] })]).1
    "a:1.0.0"
    { name := "a", version := "1.0.0", scopes := ["prod"], fileType := "",
      checksum := none, pathToRoot := [] }
    (by decide)

theorem listContainsSub_nil_sub : ∀ l : List Char, listContainsSub [] l = true
  | [] => rfl
  | _ :: _ => rfl

theorem isPrefixOf_append_self : ∀ (l post : List Char), l.isPrefixOf (l ++ post) = true
  | [], post => by cases post <;> rfl
  | c :: t, post => by simp [List.isPrefixOf, isPrefixOf_append_self t post]

theorem listContainsSub_of_here (sub post : List Char) :
    listContainsSub sub (sub ++ post) = true := by
  cases sub with
  | nil => exact listContainsSub_nil_sub post
  | cons c t =>
    have hp : (c :: t).isPrefixOf (c :: t ++ post) = true :=
      isPrefixOf_append_self (c :: t) post
    simp [listContainsSub, hp]

theorem listContainsSub_cons (sub : List Char) (c : Char) (l : List Char)
    (h : listContainsSub sub l = true) : listContainsSub sub (c :: l) = true := by
  simp [listContainsSub, h]

theorem listContainsSub_append_left :
    ∀ (pre sub post : List Char), listContainsSub sub (pre ++ (sub ++ post)) = true
  | [], sub, post => listContainsSub_of_here sub post
  | c :: pre, sub, post =>
    listContainsSub_cons _ c _ (listContainsSub_append_left pre sub post)

theorem strContains_middle (a b c : String) : strContains (a ++ b ++ c) b = true := by
  unfold strContains
  have hl : (a ++ b ++ c).toList = a.toList ++ (b.toList ++ c.toList) := by
    simp
  rw [hl]
  exact listContainsSub_append_left _ _ _

theorem strContains_right (a b : String) : strContains (a ++ b) b = true := by
  unfold strContains
  have hl : (a ++ b).toList = a.toList ++ (b.toList ++ []) := by
    simp
  rw [hl]
  exact listContainsSub_append_left _ _ _

/-- C7: when an operational error follows the registry-config replacement
and the mandatory restoration itself fails, `run` surfaces one error whose
text contains both the restoration failure and the original error; when the
restoration succeeds, `run` returns exactly the original error. -/
theorem double_failure_surfaces_both (cb : Bool) (args : List String)
    (env : RunEnv) (e : String)
    (hp : env.prepareError = none) (hc : env.createTempNpmrcError = none)
    (hi : env.installError = some e) :
    (∀ rErr, env.restoreError = some rErr →
       ∃ s, run cb args env = some s ∧
         strContains s rErr = true ∧ strContains s e = true) ∧
    (env.restoreError = none → run cb args env = some e) := by
  constructor
  · intro rErr hr
    refine ⟨"Two errors occurred:\n " ++ rErr ++ "\n " ++ e, ?_, ?_, ?_⟩
    · simp [run, runInstallOrCi, hp, hc, hi, hr, restoreNpmrcAndError]
    · rw [String.append_assoc ("Two errors occurred:\n " ++ rErr) "\n " e]
      exact strContains_middle "Two errors occurred:\n " rErr ("\n " ++ e)
    · exact strContains_right ("Two errors occurred:\n " ++ rErr ++ "\n ") e
  · intro hr
    simp [run, runInstallOrCi, hp, hc, hi, hr, restoreNpmrcAndError]

/-- C7 witness: a concrete double failure surfaces both causes, and with a
successful restoration the original error is returned unchanged. -/
theorem double_failure_surfaces_both_witness :
    (∃ s,
       run false []
         { prepareError := none, createTempNpmrcError := none,
           installError := some "install failed", restoreError := some "restore failed",
           setDependenciesError := none, collectChecksumsError := none,
           saveDataError := none } = some s ∧
       strContains s "restore failed" = true ∧
       strContains s "install failed" = true) ∧
    run false []
        { prepareError := none, createTempNpmrcError := none,
          installError := some "install failed", restoreError := none,
          setDependenciesError := none, collectChecksumsError := none,
          saveDataError := none } = some "install failed" :=
  ⟨(double_failure_surfaces_both false []
      { prepareError := none, createTempNpmrcError := none,
        installError := some "install failed", restoreError := some "restore failed",
        setDependenciesError := none, collectChecksumsError := none,
        saveDataError := none } "install failed" rfl rfl rfl).1
      "restore failed" rfl,
   (double_failure_surfaces_both false []
      { prepareError := none, createTempNpmrcError := none,
        installError := some "install failed", restoreError := none,
        setDependenciesError := none, collectChecksumsError := none,
        saveDataError := none } "install failed" rfl rfl rfl).2 rfl⟩

theorem versionCompare_pos_iff (v w : SemVer) :
    (0 < versionCompare v w) ↔ semVerLt v w = true := by
  unfold versionCompare
  by_cases he : v = w
  · subst he
    simp [semVerLt]
  · by_cases hlt : semVerLt v w = true
    · simp [he, hlt]
    · simp [he, hlt]

/-- C8: the npm version check is an abort-before-mutation gate: every
version strictly below the minimum supported 5.4.0 makes
`validateNpmVersion` fail, every version at or above it passes, a
validation failure aborts `preparePrerequisites` with that error, and a
prerequisite failure makes `run` return it before any later pipeline step
is consulted. -/
theorem version_gate_aborts_below_minimum (command : String) (v : SemVer) :
    (semVerLt v minSupportedNpmVersion = true →
       validateNpmVersion command (.ok v) =
         .error ("JFrog CLI npm " ++ command ++
           " command requires npm client version 5.4.0 or higher")) ∧
    (semVerLt v minSupportedNpmVersion = false →
       validateNpmVersion command (.ok v) = .ok v) ∧
    (∀ (env : PrereqEnv) (e : String), env.setNpmExecutableError = none →
       validateNpmVersion command env.npmVersionResult = .error e →
       preparePrerequisites command env = some e) ∧
    (∀ (cb : Bool) (args : List String) (renv : RunEnv) (e : String),
       renv.prepareError = some e → run cb args renv = some e) := by
  refine ⟨?_, ?_, ?_, ?_⟩
  · intro h
    have hpos : 0 < versionCompare v minSupportedNpmVersion :=
      (versionCompare_pos_iff v minSupportedNpmVersion).mpr h
    simp [validateNpmVersion, hpos]
  · intro h
    have hpos : ¬ 0 < versionCompare v minSupportedNpmVersion := by
      rw [versionCompare_pos_iff]
      simp [h]
    simp [validateNpmVersion, hpos]
  · intro env e h1 h2
    simp [preparePrerequisites, h1, h2]
  · intro cb args renv e h
    simp [run, h]

/-- C8 witness: npm 5.3.9 is below the minimum and is rejected; npm 5.4.0
itself passes. -/
theorem version_gate_aborts_below_minimum_witness :
    validateNpmVersion "install" (.ok { major := 5, minor := 3, patch := 9 }) =
      .error ("JFrog CLI npm " ++ "install" ++
        " command requires npm client version 5.4.0 or higher") ∧
    validateNpmVersion "install" (.ok { major := 5, minor := 4, patch := 0 }) =
      .ok { major := 5, minor := 4, patch := 0 } :=
  ⟨(version_gate_aborts_below_minimum "install"
      { major := 5, minor := 3, patch := 9 }).1 (by decide),
   (version_gate_aborts_below_minimum "install"
      { major := 5, minor := 4, patch := 0 }).2.1 (by decide)⟩

/-- C9 counterexample: the non-boolean `json` value "banana" is not an
error — `setJsonOutput` succeeds, treating it as true, and the whole
prerequisite preparation succeeds, so the command does not abort. -/
theorem non_boolean_json_does_not_abort :
    setJsonOutput (.ok "banana") = .ok true ∧
    preparePrerequisites "install"
        { setNpmExecutableError := none,
          npmVersionResult := .ok { major := 6, minor := 14, patch := 0 },
          configGetJson := .ok "banana",
          workingDirResult := .ok "/tmp/project",
          setArtifactoryAuthError := none,
          npmRepoDetailsResult := .ok ("authToken", "https://example.test/api/npm/npm"),
          prepareBuildInfoResult := .ok true,
          backupFileError := none } = none :=
  ⟨rfl, by decide⟩

/-- C9 amended: a non-boolean effective `json` value is not a prerequisite
error: `setJsonOutput` maps every value other than the literal "false" to
an effective true flag and only "false" to false, and when `npm config get
json` succeeds the preparation outcome is the same as with the boolean
value "true" — preparation never aborts because of the value. -/
theorem non_boolean_json_treated_as_true (v : String) (cmd : String)
    (env : PrereqEnv) :
    (v ≠ "false" → setJsonOutput (.ok v) = .ok true) ∧
    setJsonOutput (.ok "false") = .ok false ∧
    (env.configGetJson = .ok v →
      preparePrerequisites cmd env =
        preparePrerequisites cmd { env with configGetJson := .ok "true" }) := by
  refine ⟨?_, rfl, ?_⟩
  · intro h
    simp [setJsonOutput, h]
  · intro h
    simp [preparePrerequisites, setJsonOutput, h]

/-- C9 amended witness: the non-boolean value "yes" yields an effective
true flag. -/
theorem non_boolean_json_treated_as_true_witness :
    setJsonOutput (.ok "yes") = .ok true :=
  (non_boolean_json_treated_as_true "yes" "install"
      { setNpmExecutableError := none,
        npmVersionResult := .ok { major := 6, minor := 14, patch := 0 },
        configGetJson := .ok "yes",
        workingDirResult := .ok "/tmp/project",
        setArtifactoryAuthError := none,
        npmRepoDetailsResult := .ok ("authToken", "https://example.test/api/npm/npm"),
        prepareBuildInfoResult := .ok true,
        backupFileError := none }).1 (by decide)

/-- C10: when build-info collection is enabled but a non-flag npm argument
remains after filtering, `runInstallOrCi` silently disables collection, so
a `run` whose install phase succeeds returns success without consulting the
dependency-parsing, checksum-collection or persistence steps (their
outcomes are arbitrary in `env`), while an install failure still
propagates. -/
theorem nonflag_args_skip_buildinfo (args : List String) (env : RunEnv)
    (hargs : filterFlags args ≠ []) :
    (runInstallOrCi true args env.installError).1 = false ∧
    (env.prepareError = none → env.createTempNpmrcError = none →
     env.installError = none → env.restoreError = none →
     run true args env = none) ∧
    (∀ e, env.prepareError = none → env.createTempNpmrcError = none →
       env.installError = some e →
       run true args env = some (restoreNpmrcAndError env.restoreError e)) := by
  have hlen : 0 < (filterFlags args).length := List.length_pos.mpr hargs
  refine ⟨?_, ?_, ?_⟩
  · simp [runInstallOrCi, hlen]
  · intro h1 h2 h3 h4
    simp [run, runInstallOrCi, h1, h2, h3, h4, hlen]
  · intro e h1 h2 h3
    simp [run, runInstallOrCi, h1, h2, h3, hlen]

/-- C10 witness: with the non-flag argument "pkg" and a successful install,
the command succeeds even though every build-info step would fail. -/
theorem nonflag_args_skip_buildinfo_witness :
    run true ["pkg"]
        { prepareError := none, createTempNpmrcError := none,
          installError := none, restoreError := none,
          setDependenciesError := some "parse failed",
          collectChecksumsError := some "collect failed",
          saveDataError := some "save failed" } = none :=
  (nonflag_args_skip_buildinfo ["pkg"]
      { prepareError := none, createTempNpmrcError := none,
        installError := none, restoreError := none,
        setDependenciesError := some "parse failed",
        collectChecksumsError := some "collect failed",
        saveDataError := some "save failed" } (by decide)).2.1 rfl rfl rfl rfl

theorem processConfigLine_eq (r : TypeRestriction) (line : String) :
    processConfigLine r line =
      ((lineKeyVal line).map fun kv => setTypeRestriction r kv.1 kv.2).getD r := by
  by_cases h : line = ""
  · simp [processConfigLine, lineKeyVal, h]
  · rcases hs : splitN2 line with _ | ⟨a, _ | ⟨b, _ | ⟨c, t⟩⟩⟩ <;>
      simp only [processConfigLine, lineKeyVal, if_neg h, hs] <;>
      first
        | rfl
        | (by_cases hv : isValidKey (strTrim a) = true <;> simp [hv])

theorem foldl_processConfigLine_eq :
    ∀ (lines : List String) (r : TypeRestriction),
      lines.foldl processConfigLine r =
      (lines.filterMap lineKeyVal).foldl
        (fun r kv => setTypeRestriction r kv.1 kv.2) r
  | [], _ => rfl
  | line :: rest, r => by
    cases hl : lineKeyVal line with
    | none =>
      simp only [List.foldl_cons, List.filterMap_cons, hl, processConfigLine_eq,
        Option.map_none', Option.getD_none]
      exact foldl_processConfigLine_eq rest r
    | some kv =>
      simp only [List.foldl_cons, List.filterMap_cons, hl, processConfigLine_eq,
        Option.map_some', Option.getD_some]
      exact foldl_processConfigLine_eq rest _

theorem setTypeRestriction_omit (r : TypeRestriction) (v : String) :
    setTypeRestriction r "omit" v =
      if strContains v "dev" then .prodOnly else .all := by
  simp [setTypeRestriction]

theorem setTypeRestriction_stable {r : TypeRestriction}
    (hr : r ≠ .defaultRestriction) {k : String} (hk : k ≠ "omit") (v : String) :
    setTypeRestriction r k v = r := by
  simp [setTypeRestriction, hr, hk]

theorem setTypeRestriction_of_default {k : String} (hk : k ≠ "omit") (v : String) :
    setTypeRestriction .defaultRestriction k v =
      (deprecatedRestriction (k, v)).getD .defaultRestriction := by
  by_cases h1 : k = "only"
  · subst h1
    by_cases hp : strContains v "prod" = true
    · simp [setTypeRestriction, deprecatedRestriction, hp]
    · by_cases hd : strContains v "dev" = true <;>
        simp [setTypeRestriction, deprecatedRestriction, hp, hd]
  · by_cases h2 : k = "production"
    · subst h2
      by_cases ht : strContains v "true" = true <;>
        simp [setTypeRestriction, deprecatedRestriction, ht]
    · simp [setTypeRestriction, deprecatedRestriction, hk, h1, h2]

theorem deprecatedRestriction_ne_default {kv : String × String}
    {x : TypeRestriction} (h : deprecatedRestriction kv = some x) :
    x ≠ TypeRestriction.defaultRestriction := by
  unfold deprecatedRestriction at h
  split_ifs at h <;>
    first
      | exact Option.noConfusion h
      | (obtain rfl := Option.some.inj h; decide)

theorem foldl_setTypeRestriction_spec :
    ∀ (pairs : List (String × String)) (r : TypeRestriction),
      pairs.foldl (fun r kv => setTypeRestriction r kv.1 kv.2) r =
      (match lastOmitValue pairs with
       | some v => if strContains v "dev" then TypeRestriction.prodOnly
                   else TypeRestriction.all
       | none =>
         if r = TypeRestriction.defaultRestriction then
           (pairs.findSome? deprecatedRestriction).getD
             TypeRestriction.defaultRestriction
         else r)
  | [], r => by
    by_cases h : r = TypeRestriction.defaultRestriction <;>
      simp [lastOmitValue, h]
  | (k, v) :: rest, r => by
    rw [List.foldl_cons, foldl_setTypeRestriction_spec rest]
    cases hrest : lastOmitValue rest with
    | some w => simp [lastOmitValue, hrest]
    | none =>
      by_cases hk : k = "omit"
      · subst hk
        simp only [lastOmitValue, hrest, setTypeRestriction_omit, if_pos rfl]
        by_cases hc : strContains v "dev" = true <;> simp [hc]
      · by_cases hr : r = TypeRestriction.defaultRestriction
        · subst hr
          simp only [lastOmitValue, hrest, if_neg hk, List.findSome?_cons]
          rw [setTypeRestriction_of_default hk]
          cases hd : deprecatedRestriction (k, v) with
          | some x =>
            simp [hd, deprecatedRestriction_ne_default hd]
          | none =>
            simp [hd]
        · simp only [lastOmitValue, hrest, if_neg hk]
          rw [setTypeRestriction_stable hr hk]
          simp [hr]

theorem deriveTypeRestriction_eq_claimRestriction (lines : List String) :
    deriveTypeRestriction lines = claimRestriction lines := by
  unfold deriveTypeRestriction claimRestriction
  rw [foldl_processConfigLine_eq, foldl_setTypeRestriction_spec]
  cases h : lastOmitValue (lines.filterMap lineKeyVal) <;> simp [h]

/-- C2: the restriction derived line by line from the configuration dump
obeys the claimed priority — an `omit` line always wins (its value
containing "dev" gives prod-only, anything else gives all), overriding the
deprecated keys before or after it; with no `omit` line, the first
effective `only` / `production=true` line wins and later ones are ignored —
and the two concrete scenarios: `omit = dev` with `only = prod` (in either
order) gives prod-only, and `production = true` alone gives prod-only. -/
theorem restriction_priority_matches_claim :
    (∀ lines : List String, deriveTypeRestriction lines = claimRestriction lines) ∧
    deriveTypeRestriction ["omit = dev", "only = prod"] = .prodOnly ∧
    deriveTypeRestriction ["only = prod", "omit = dev"] = .prodOnly ∧
    deriveTypeRestriction ["production = true"] = .prodOnly :=
  ⟨deriveTypeRestriction_eq_claimRestriction, by decide, by decide, by decide⟩

end NpmInstall
